import Mathlib

/-!
Verification development for the marktnoonan/blog repository.

The repository is a static blog.  Its one design-bearing artifact is a
minimal finite-state-machine execution model (state chart model,
transition engine, action dispatcher) documented in the specification;
the repository itself contains only prose and sample chart
configurations for that model, so the engine below is modelled from the
specification.  The two presentational components
(AnnouncementBanner.js and the ExcerptList page) are embedded directly
from their source.
-/

/-- Association-list lookup used for handler tables, context fields,
event payload fields and element attributes. -/
def lookupA {α : Type} : List (String × α) → String → Option α
  | [], _ => none
  | (k, v) :: rest, key => if k = key then some v else lookupA rest key

/-- Association-list update: replaces the value at the key, appending
the binding when the key is absent (merge semantics of assign-style
context updates). -/
def setA : List (String × String) → String → String → List (String × String)
  | [], k, v => [(k, v)]
  | (k₁, v₁) :: rest, k, v =>
    if k₁ = k then (k, v) :: rest else (k₁, v₁) :: setA rest k v

namespace StateChart

/-- Modelled from the spec: node kind, one of atomic, compound,
parallel, final (spec section 3, StateNode). -/
inductive Kind where
  | atomic
  | compound
  | parallel
  | final
deriving DecidableEq, Repr

/-- Modelled from the spec: a transition bound to one (node, event)
pair: optional target state identifier (omitted target means no state
change, actions only), ordered action identifiers, optional guard
identifier (spec section 3, Transition). -/
structure Transition where
  target : Option String
  actions : List String
  guard : Option String
deriving DecidableEq, Repr

/-- Modelled from the spec: a named node in a tree: identifier, kind,
optional initial child identifier, ordered children, mapping of event
name to transition, entry and exit action lists (spec section 3,
StateNode).  The engine itself is not implemented in the repository;
this is the StateNode the spec describes. -/
inductive Node where
  | mk : String → Kind → Option String → List Node →
      List (String × Transition) → List String → List String → Node

def Node.id : Node → String
  | .mk i _ _ _ _ _ _ => i

def Node.kind : Node → Kind
  | .mk _ k _ _ _ _ _ => k

def Node.initial : Node → Option String
  | .mk _ _ ini _ _ _ _ => ini

def Node.children : Node → List Node
  | .mk _ _ _ cs _ _ _ => cs

def Node.handlers : Node → List (String × Transition)
  | .mk _ _ _ _ hs _ _ => hs

def Node.entry : Node → List String
  | .mk _ _ _ _ _ en _ => en

def Node.exit : Node → List String
  | .mk _ _ _ _ _ _ ex => ex

/-- Modelled from the spec: the runtime position of the machine, a tree
cut of active state identifiers, describable as nested identifiers
(spec section 3, Configuration): a leaf for an active atomic or final
node, one active child for an active compound node, all children for an
active parallel node. -/
inductive Config where
  | leaf : String → Config
  | comp : String → Config → Config
  | par : String → List Config → Config

def Config.id : Config → String
  | .leaf i => i
  | .comp i _ => i
  | .par i _ => i

/-- Modelled from the spec: context is an arbitrary structured value;
the documented examples use string-keyed string fields (spec section 3,
Context). -/
abbrev Context := List (String × String)

/-- Modelled from the spec: an event is a type tag plus an arbitrary
payload of additional fields (spec section 3, Event). -/
structure Event where
  type : String
  payload : List (String × String)

/-- First node of the list carrying the given identifier. -/
def findNode : List Node → String → Option Node
  | [], _ => none
  | n :: rest, i => if n.id = i then some n else findNode rest i

mutual

/-- Modelled from the spec: resolved initial descent of a node (spec
section 4.2 step 4): a compound node descends through its initial
chain, a parallel node activates all children, atomic and final nodes
are leaves. -/
def initialDescent : Node → Config
  | .mk i k ini cs _ _ _ =>
    match k with
    | .parallel => .par i (descendAll cs)
    | .compound =>
      match ini with
      | some c =>
        match descendInto cs c with
        | some conf => .comp i conf
        | none => .leaf i
      | none => .leaf i
    | _ => .leaf i

/-- Initial descent into the child with the given identifier. -/
def descendInto : List Node → String → Option Config
  | [], _ => none
  | n :: rest, t => if n.id = t then some (initialDescent n) else descendInto rest t

/-- Initial descent of every node of the list, in order. -/
def descendAll : List Node → List Config
  | [] => []
  | n :: rest => initialDescent n :: descendAll rest

end

mutual

/-- Modelled from the spec: entry actions of every state being
activated, outermost first (spec section 4.2 step 3), along the initial
descent of the entered node. -/
def entryOf : Node → List String
  | .mk _ k ini cs _ en _ =>
    match k with
    | .parallel => en ++ entryAll cs
    | .compound =>
      match ini with
      | some c => en ++ entryInto cs c
      | none => en
    | _ => en

/-- Entry actions of the child with the given identifier. -/
def entryInto : List Node → String → List String
  | [], _ => []
  | n :: rest, t => if n.id = t then entryOf n else entryInto rest t

/-- Entry actions of every node of the list, in order. -/
def entryAll : List Node → List String
  | [] => []
  | n :: rest => entryOf n ++ entryAll rest

end

mutual

/-- Modelled from the spec: exit actions of every state being
deactivated, innermost first (spec section 4.2 step 3), walking the
active configuration below the exited node. -/
def exitOf (n : Node) (c : Config) : List String :=
  match c with
  | .leaf _ => n.exit
  | .comp _ child =>
    (match findNode n.children child.id with
     | some m => exitOf m child
     | none => []) ++ n.exit
  | .par _ confs => exitPar n.children confs ++ n.exit

/-- Exit actions of every active parallel region, in order. -/
def exitPar (sibs : List Node) (confs : List Config) : List String :=
  match confs with
  | [] => []
  | c :: rest =>
    (match findNode sibs c.id with
     | some m => exitOf m c
     | none => []) ++ exitPar sibs rest

end

/-- Intermediate outcome of handler resolution for one region (spec
section 4.2 steps 1 and 2): `handled` carries a fully resolved new
region configuration and action batch; `fire` reports a transition
taken on the inspected node itself whose sibling target the enclosing
level must resolve; `terminal` means the region accepts no event (a
final leaf, or a failed guard, which is terminal per region); and
`unhandled` lets the event bubble to the enclosing node. -/
inductive HRes where
  | handled : Config → List String → HRes
  | fire : String → List String → HRes
  | terminal : HRes
  | unhandled : HRes

/-- Modelled from the spec: evaluation of the optional guard of a
transition against the guard resolution table, context and event (spec
section 4.2 step 2); an absent guard always passes. -/
def guardPass (G : String → Context → Event → Bool) (ctx : Context)
    (ev : Event) (tr : Transition) : Bool :=
  match tr.guard with
  | none => true
  | some g => G g ctx ev

/-- Modelled from the spec: the handler check on one node itself (spec
section 4.2 steps 1 and 2): a final node stops its region (no further
events are accepted for that region); otherwise the handler declared
for the event type, if any, is taken subject to its guard (a failed
guard stops the region, it is not a fallback trigger); an undeclared
event type is skipped so that the event can bubble to the enclosing
node. -/
inductive OwnOut where
  | take : Transition → OwnOut
  | stop : OwnOut
  | skip : OwnOut

/-- The handler check of one node, shared by the transition engine and
by the bubbling lookup specification. -/
def ownCheck (G : String → Context → Event → Bool) (ctx : Context)
    (ev : Event) (n : Node) : OwnOut :=
  if n.kind = Kind.final then .stop
  else
    match lookupA n.handlers ev.type with
    | none => .skip
    | some tr =>
      if guardPass G ctx ev tr then .take tr else .stop

/-- Modelled from the spec: the engine outcome of the handler check on
one node (spec section 4.2 step 2): a stopped region is terminal, a
skipped event is unhandled, and a taken targetless handler is
actions-only while a targeted one reports the exit and transition
actions and leaves the sibling target for the caller to resolve. -/
def ownRes (G : String → Context → Event → Bool) (ctx : Context)
    (ev : Event) (n : Node) (c : Config) : HRes :=
  match ownCheck G ctx ev n with
  | .skip => .unhandled
  | .stop => .terminal
  | .take tr =>
    match tr.target with
    | none => .handled c tr.actions
    | some tid => .fire tid (exitOf n c ++ tr.actions)

/-- Modelled from the spec: resolution of a fired sibling target: the
deactivated region is replaced by the resolved initial descent of the
target, and the entry actions of the activated states are appended
after the exit and transition actions (spec section 4.2 steps 3 and
4). -/
def resolveFire (sibs : List Node) (c : Config) : HRes → HRes
  | .fire tid acts =>
    match findNode sibs tid with
    | some m => .handled (initialDescent m) (acts ++ entryOf m)
    | none => .handled c acts
  | r => r

mutual

/-- Modelled from the spec: handler resolution at one active node (spec
section 4.2 step 1): deeper active descendants are consulted first
(event bubbling, the most deeply nested active node declaring a handler
wins; an ancestor handler is consulted only when no active descendant
handles the event); when no descendant handles it and the region is not
terminal, the node checks its own handlers. -/
def transN (G : String → Context → Event → Bool) (ctx : Context)
    (ev : Event) (n : Node) (c : Config) : HRes :=
  let deeper : HRes :=
    match c with
    | .leaf _ => .unhandled
    | .comp i child =>
      match
        (match findNode n.children child.id with
         | some m => resolveFire n.children child (transN G ctx ev m child)
         | none => .unhandled) with
      | .handled child₁ acts => .handled (.comp i child₁) acts
      | .terminal => .terminal
      | _ => .unhandled
    | .par i confs =>
      match transP G ctx ev n.children confs with
      | (confs₁, acts, true, _) => .handled (.par i confs₁) acts
      | (_, _, false, true) => .terminal
      | _ => .unhandled
  match deeper with
  | .handled c₁ a => .handled c₁ a
  | .terminal => .terminal
  | _ => ownRes G ctx ev n c

/-- Modelled from the spec: every active parallel region attempts the
event independently; regions that fire are replaced and their batches
concatenated in region order (spec section 4.2 step 1 and section 9).
Returns the new region configurations, the concatenated actions,
whether any region handled the event, and whether every region was
terminal. -/
def transP (G : String → Context → Event → Bool) (ctx : Context)
    (ev : Event) (sibs : List Node) (confs : List Config) :
    List Config × List String × Bool × Bool :=
  match confs with
  | [] => ([], [], false, true)
  | c :: rest =>
    let r : HRes :=
      match findNode sibs c.id with
      | some m => resolveFire sibs c (transN G ctx ev m c)
      | none => .unhandled
    let q := transP G ctx ev sibs rest
    match r with
    | .handled c₁ a => (c₁ :: q.1, a ++ q.2.1, true, false)
    | .terminal => (c :: q.1, q.2.1, q.2.2.1, q.2.2.2)
    | _ => (c :: q.1, q.2.1, q.2.2.1, false)

end

/-- Modelled from the spec: handler resolution for the whole active
configuration against the top-level state list of the chart: the active
top-level node is resolved and a transition fired anywhere along its
active chain is applied. -/
def transL (G : String → Context → Event → Bool) (ctx : Context)
    (ev : Event) (sibs : List Node) (c : Config) : HRes :=
  match findNode sibs c.id with
  | some n => resolveFire sibs c (transN G ctx ev n c)
  | none => .unhandled

/-- Modelled from the spec: a chart is the root node together with the
embedder-supplied resolution tables: assign-style actions updating the
context, and guard predicates over context and event (spec sections 3,
4.1 and 6). -/
structure Chart where
  root : Node
  assigns : String → Option (Context → Event → Context)
  guards : String → Context → Event → Bool

/-- Modelled from the spec: assign-style actions of the batch are
applied first, in batch order, to produce the new context (spec section
4.2 step 5). -/
def applyAssigns (ch : Chart) (acts : List String) (ev : Event)
    (ctx : Context) : Context :=
  acts.foldl (fun c a =>
    match ch.assigns a with
    | some f => f c ev
    | none => c) ctx

/-- Result of one step: new configuration, new context, action batch
for the dispatcher, and whether a transition was taken. -/
structure StepResult where
  conf : Config
  ctx : Context
  actions : List String
  changed : Bool

/-- Packaging of a resolution outcome into the engine output: a handled
event commits the new configuration, applies the assign-style actions
to the context, and hands the batch to the dispatcher; anything else is
the documented no-op (spec section 4.2 steps 5 and 6). -/
def stepRes (ch : Chart) (conf : Config) (ctx : Context) (ev : Event) :
    HRes → StepResult
  | .handled conf₁ acts => ⟨conf₁, applyAssigns ch acts ev ctx, acts, true⟩
  | _ => ⟨conf, ctx, [], false⟩

/-- Modelled from the spec: the transition engine, a pure function from
(chart, configuration, context, event) to (configuration, context,
actions to run, changed) (spec section 4.2).  An event no region
handles is a no-op, not an error. -/
def step (ch : Chart) (conf : Config) (ctx : Context) (ev : Event) :
    StepResult :=
  stepRes ch conf ctx ev (transL ch.guards ctx ev ch.root.children conf)

mutual

/-- Whether some node of the active configuration below (and including)
the given active node declares a handler for the event type: these are
exactly the handlers bubbling can reach. -/
def activeHasN (n : Node) (c : Config) (t : String) : Bool :=
  (lookupA n.handlers t).isSome ||
  (match c with
   | .leaf _ => false
   | .comp _ child =>
     match findNode n.children child.id with
     | some m => activeHasN m child t
     | none => false
   | .par _ confs => activeHasP n.children confs t)

/-- Whether some node active in one of the parallel region
configurations declares a handler for the event type. -/
def activeHasP (sibs : List Node) (confs : List Config) (t : String) :
    Bool :=
  match confs with
  | [] => false
  | c :: rest =>
    (match findNode sibs c.id with
     | some m => activeHasN m c t
     | none => false) || activeHasP sibs rest t

end

/-- Whether any node of the active configuration declares a handler for
the event type. -/
def activeHas (sibs : List Node) (c : Config) (t : String) : Bool :=
  match findNode sibs c.id with
  | some n => activeHasN n c t
  | none => false

mutual

/-- Whether the configuration is a legal cut of the subtree rooted at
the given node (spec section 3, Configuration invariant): an atomic or
final node is a terminal leaf, an active compound node has exactly one
active child, an active parallel node has all children active. -/
def validCutN (n : Node) (c : Config) : Bool :=
  match n.kind, c with
  | .atomic, .leaf _ => true
  | .final, .leaf _ => true
  | .compound, .comp _ child =>
    (match findNode n.children child.id with
     | some m => validCutN m child
     | none => false)
  | .parallel, .par _ confs => validCutP n.children confs
  | _, _ => false

/-- Whether the region configurations are exactly the legal cuts of all
the children of an active parallel node, in declaration order. -/
def validCutP (ns : List Node) (confs : List Config) : Bool :=
  match ns, confs with
  | [], [] => true
  | n :: rest, c :: cs => (n.id = c.id : Bool) && validCutN n c && validCutP rest cs
  | _, _ => false

end

/-- Whether the configuration is a legal cut of the chart whose
top-level states are the given list. -/
def validCut (sibs : List Node) (c : Config) : Bool :=
  match findNode sibs c.id with
  | some n => validCutN n c
  | none => false

/-- Whether the identifiers of the listed nodes are pairwise
distinct. -/
def noDupIds : List Node → Bool
  | [] => true
  | n :: rest => (findNode rest n.id).isNone && noDupIds rest

mutual

/-- Structural validity of one node relative to its sibling list (spec
sections 3 and 4.1): every transition target names a sibling; an atomic
node has no children; a final node has no children and no outgoing
transitions; a compound node has an initial naming one of its children
and a valid child forest; a parallel node has no initial, a non-empty
valid child forest, and distinct child identifiers.  The regions of a
parallel node declare only targetless handlers on the region root
itself: a transition from one parallel region to a sibling region is
outside the documented contract (spec section 9 leaves cross-region
behavior open). -/
def wfN (sibs : List Node) (n : Node) : Bool :=
  match n with
  | .mk _ k ini cs hs _ _ =>
    hs.all (fun h =>
      match h.2.target with
      | none => true
      | some t => (findNode sibs t).isSome) &&
    (match k with
     | .atomic => cs.isEmpty
     | .final => cs.isEmpty && hs.isEmpty
     | .compound =>
       (match ini with
        | some i => (findNode cs i).isSome
        | none => false) &&
       noDupIds cs && wfL cs cs
     | .parallel =>
       ini.isNone && !cs.isEmpty &&
       noDupIds cs && wfL cs cs &&
       cs.all (fun r => r.handlers.all (fun h => h.2.target.isNone)))

/-- Structural validity of every node of `rest` relative to the full
sibling list `sibs`. -/
def wfL (sibs : List Node) (rest : List Node) : Bool :=
  match rest with
  | [] => true
  | n :: r => wfN sibs n && wfL sibs r

end

/-- Structural validity of a whole chart: the top-level state list has
distinct identifiers, all nodes valid; malformed charts are rejected at
construction (spec section 4.1). -/
def wfChart (ch : Chart) : Bool :=
  noDupIds ch.root.children && wfL ch.root.children ch.root.children

/-- The node `n`, with sibling forest `sibs1` and active
subconfiguration `cn`, lies on the active chain of the configuration
`c` over the top-level forest `sibs`: it is the top active node itself,
or active inside the one active child of an active compound node, or
active inside one of the region configurations of an active parallel
node. -/
inductive ActiveIn :
    List Node → Config → List Node → Node → Config → Prop where
  | here {sibs : List Node} {c : Config} {n : Node} :
      findNode sibs c.id = some n → ActiveIn sibs c sibs n c
  | comp {sibs : List Node} {i : String} {child : Config} {n : Node}
      {sibs1 : List Node} {m : Node} {cm : Config} :
      findNode sibs i = some n →
      ActiveIn n.children child sibs1 m cm →
      ActiveIn sibs (.comp i child) sibs1 m cm
  | par {sibs : List Node} {i : String} {confs : List Config}
      {c : Config} {n : Node} {sibs1 : List Node} {m : Node}
      {cm : Config} :
      findNode sibs i = some n → c ∈ confs →
      ActiveIn n.children c sibs1 m cm →
      ActiveIn sibs (.par i confs) sibs1 m cm

/-- The action batch contributed by one fired region of a step on the
configuration `conf` over the forest `sibs`: the firing node must be
active in `conf` with its actual sibling forest and active
subconfiguration, must declare the handler for the event type, and its
guard must pass.  A targetless transition contributes its bare action
list; a targeted one, whose target resolves among the firing node
siblings, contributes exactly the exit actions of the deactivated
states (innermost first) followed by the transition actions (in
declaration order) followed by the entry actions of the activated
states (outermost first). -/
inductive RegionBatch (G : String → Context → Event → Bool)
    (ctx : Context) (ev : Event) (sibs : List Node) (conf : Config) :
    List String → Prop where
  | targetless {sibs1 : List Node} {n : Node} {cn : Config}
      {tr : Transition}
      (ha : ActiveIn sibs conf sibs1 n cn)
      (hh : lookupA n.handlers ev.type = some tr)
      (hg : guardPass G ctx ev tr = true)
      (ht : tr.target = none) :
      RegionBatch G ctx ev sibs conf tr.actions
  | targeted {sibs1 : List Node} {n m : Node} {cn : Config}
      {tr : Transition} {tid : String}
      (ha : ActiveIn sibs conf sibs1 n cn)
      (hh : lookupA n.handlers ev.type = some tr)
      (hg : guardPass G ctx ev tr = true)
      (ht : tr.target = some tid)
      (hm : findNode sibs1 tid = some m) :
      RegionBatch G ctx ev sibs conf (exitOf n cn ++ tr.actions ++ entryOf m)

/-- A full action batch of one step on the configuration `conf` over
the forest `sibs`: one region batch, or several concatenated in region
order when parallel regions fire together. -/
inductive Batches (G : String → Context → Event → Bool) (ctx : Context)
    (ev : Event) (sibs : List Node) (conf : Config) :
    List String → Prop where
  | one {b : List String} : RegionBatch G ctx ev sibs conf b →
      Batches G ctx ev sibs conf b
  | cons {b bs : List String} : RegionBatch G ctx ev sibs conf b →
      Batches G ctx ev sibs conf bs → Batches G ctx ev sibs conf (b ++ bs)

/-- A configuration that is one single active chain: compound nesting
only, no parallel regions.  The bubbling law of spec section 4.1
describes the lookup along one such chain. -/
def chainOnly : Config → Bool
  | .leaf _ => true
  | .comp _ child => chainOnly child
  | .par _ _ => false

/-- Outcome of the bubbling handler lookup: the chosen node (with its
sibling forest, active subconfiguration and transition), a blocked
region (final node reached, or the guard of the chosen handler failed,
both terminal per region), or no handler anywhere on the chain. -/
inductive Choice where
  | pick : List Node → Node → Config → Transition → Choice
  | blocked : Choice
  | miss : Choice

/-- The lookup-side reading of the handler check of one node: a taken
handler is picked together with the node, its sibling forest and its
active subconfiguration, a stopped region is blocked, and a skipped
event is a miss. -/
def ownToChoice (sibs : List Node) (n : Node) (c : Config) :
    OwnOut → Choice
  | .take tr => .pick sibs n c tr
  | .stop => .blocked
  | .skip => .miss

/-- Modelled from the spec: handler lookup by bubbling, stated
independently of the transition engine (spec section 4.1): the chosen
handler is the one declared on the most deeply nested active node that
declares a handler for the event type, searching upward toward the
root and stopping at the first such node; an ancestor handler is
consulted only when no active descendant handles the event.  The
function performs no exit, entry or configuration computation: it only
identifies the chosen node, its sibling forest, its active
subconfiguration and its transition. -/
def chooseN (G : String → Context → Event → Bool) (ctx : Context)
    (ev : Event) (sibs : List Node) (n : Node) (c : Config) : Choice :=
  match c with
  | .leaf _ => ownToChoice sibs n c (ownCheck G ctx ev n)
  | .comp _ child =>
    (match findNode n.children child.id with
     | some m =>
       match chooseN G ctx ev n.children m child with
       | .miss => ownToChoice sibs n c (ownCheck G ctx ev n)
       | r => r
     | none => ownToChoice sibs n c (ownCheck G ctx ev n))
  | .par _ _ => .miss

/-- The bubbling handler lookup for a whole configuration over the
top-level state list: resolve the top active node, then search from
the most deeply nested active node upward. -/
def choose (G : String → Context → Event → Bool) (ctx : Context)
    (ev : Event) (sibs : List Node) (c : Config) : Choice :=
  match findNode sibs c.id with
  | some n => chooseN G ctx ev sibs n c
  | none => .miss

/-- The flat light bulb machine of the source (part_000, sections What
is a State Machine and Why Booleans are a Misguided Approach): states
lit, unlit, broken; BREAK leads to the final state broken. -/
def lightBulbFlat : Chart :=
  ⟨.mk "lightBulb" .compound (some "unlit")
    [.mk "lit" .atomic none []
      [("TURN_OFF", ⟨some "unlit", [], none⟩),
       ("BREAK", ⟨some "broken", [], none⟩)] [] [],
     .mk "unlit" .atomic none []
      [("TURN_ON", ⟨some "lit", [], none⟩),
       ("BREAK", ⟨some "broken", [], none⟩)] [] [],
     .mk "broken" .final none [] [] [] []]
    [] [] [],
   fun _ => none, fun _ _ _ => true⟩

/-- The light bulb machine with entry and exit actions of the source
(part_000, section Side Effects with State Machines): lit has entry
action enterLit, unlit has exit action leaveUnlit. -/
def lightBulbActions : Chart :=
  ⟨.mk "lightBulb" .compound (some "unlit")
    [.mk "lit" .atomic none []
      [("TURN_OFF", ⟨some "unlit", [], none⟩),
       ("BREAK", ⟨some "broken", [], none⟩)] ["enterLit"] [],
     .mk "unlit" .atomic none []
      [("TURN_ON", ⟨some "lit", [], none⟩),
       ("BREAK", ⟨some "broken", [], none⟩)] [] ["leaveUnlit"],
     .mk "broken" .final none [] [] [] []]
    [] [] [],
   fun _ => none, fun _ _ _ => true⟩

/-- The light bulb machine with context of the source (part_000,
section Context in State Machines): a targetless CHANGE_COLOR handler
on lit and unlit runs the assign-style action updateColor, which sets
the color field of the context from the color field of the event. -/
def lightBulbColor : Chart :=
  ⟨.mk "lightBulb" .compound (some "unlit")
    [.mk "lit" .atomic none []
      [("CHANGE_COLOR", ⟨none, ["updateColor"], none⟩),
       ("TURN_OFF", ⟨some "unlit", [], none⟩),
       ("BREAK", ⟨some "broken", [], none⟩)] [] [],
     .mk "unlit" .atomic none []
      [("CHANGE_COLOR", ⟨none, ["updateColor"], none⟩),
       ("TURN_ON", ⟨some "lit", [], none⟩),
       ("BREAK", ⟨some "broken", [], none⟩)] [] [],
     .mk "broken" .final none [] [] [] []]
    [] [] [],
   fun a =>
     if a = "updateColor" then
       some (fun ctx ev => setA ctx "color" ((lookupA ev.payload "color").getD ""))
     else none,
   fun _ _ _ => true⟩

/-- The low brightness child state of the hierarchical machine
(part_000, section Hierarchical Machines). -/
def hierLow : Node :=
  .mk "low" .atomic none []
    [("INCREASE_BRIGHTNESS", ⟨some "normal", [], none⟩)] [] []

/-- The normal brightness child state of the hierarchical machine. -/
def hierNormal : Node :=
  .mk "normal" .atomic none []
    [("DECREASE_BRIGHTNESS", ⟨some "low", [], none⟩),
     ("INCREASE_BRIGHTNESS", ⟨some "high", [], none⟩)] [] []

/-- The high brightness child state of the hierarchical machine. -/
def hierHigh : Node :=
  .mk "high" .atomic none []
    [("DECREASE_BRIGHTNESS", ⟨some "normal", [], none⟩)] [] []

/-- The lit state of the hierarchical machine: compound with initial
normal and the three brightness children; TURN_OFF and BREAK are
declared on lit itself. -/
def hierLit : Node :=
  .mk "lit" .compound (some "normal") [hierLow, hierNormal, hierHigh]
    [("TURN_OFF", ⟨some "unlit", [], none⟩),
     ("BREAK", ⟨some "broken", [], none⟩)] [] []

/-- The unlit state of the hierarchical machine. -/
def hierUnlit : Node :=
  .mk "unlit" .atomic none []
    [("TURN_ON", ⟨some "lit", [], none⟩),
     ("BREAK", ⟨some "broken", [], none⟩)] [] []

/-- The final broken state of the hierarchical machine. -/
def hierBroken : Node := .mk "broken" .final none [] [] [] []

/-- The hierarchical light bulb machine of the source (part_000,
section Hierarchical Machines): lit is compound with initial normal and
children low, normal, high responding to brightness events; TURN_OFF
and BREAK are declared on lit itself. -/
def lightBulbHier : Chart :=
  ⟨.mk "lightBulb" .compound (some "unlit") [hierLit, hierUnlit, hierBroken]
    [] [] [],
   fun _ => none, fun _ _ _ => true⟩

/-- The parallel light bulb machine of the source (part_000, section
Parallel Machines): lit is parallel with independent regions pattern
(steady, pulsing, flashing) and movement (stationary, oscillating). -/
def lightBulbPar : Chart :=
  ⟨.mk "lightBulb" .compound (some "unlit")
    [.mk "lit" .parallel none
      [.mk "pattern" .compound (some "steady")
        [.mk "steady" .atomic none []
          [("PULSE", ⟨some "pulsing", [], none⟩),
           ("FLASH", ⟨some "flashing", [], none⟩)] [] [],
         .mk "pulsing" .atomic none []
          [("STEADY", ⟨some "steady", [], none⟩),
           ("FLASH", ⟨some "flashing", [], none⟩)] [] [],
         .mk "flashing" .atomic none []
          [("STEADY", ⟨some "steady", [], none⟩),
           ("PULSE", ⟨some "pulsing", [], none⟩)] [] []]
        [] [] [],
       .mk "movement" .compound (some "stationary")
        [.mk "stationary" .atomic none []
          [("OSCILLATE", ⟨some "oscillating", [], none⟩)] [] [],
         .mk "oscillating" .atomic none []
          [("STOP", ⟨some "stationary", [], none⟩)] [] []]
        [] [] []]
      [("TURN_OFF", ⟨some "unlit", [], none⟩),
       ("BREAK", ⟨some "broken", [], none⟩)] [] [],
     .mk "unlit" .atomic none []
      [("TURN_ON", ⟨some "lit", [], none⟩),
       ("BREAK", ⟨some "broken", [], none⟩)] [] [],
     .mk "broken" .final none [] [] [] []]
    [] [] [],
   fun _ => none, fun _ _ _ => true⟩

end StateChart

namespace Site

/-- A rendered element tree: a text node, or a tag with string-valued
attributes and children.  Styling objects (emotion css props) are
presentation-only and not modelled. -/
inductive Elem where
  | text : String → Elem
  | tag : String → List (String × String) → List Elem → Elem

mutual

/-- All outbound links of an element tree, in document order: for every
OutboundLink tag, its href attribute and its children. -/
def outLinks : Elem → List (String × List Elem)
  | .text _ => []
  | .tag name attrs children =>
    (if name = "OutboundLink" then [((lookupA attrs "href").getD "", children)]
     else []) ++ outLinksL children

/-- Outbound links of a list of elements, in order. -/
def outLinksL : List Elem → List (String × List Elem)
  | [] => []
  | e :: rest => outLinks e ++ outLinksL rest

end

mutual

/-- Every text chunk of an element tree, in document order. -/
def textsOf : Elem → List String
  | .text s => [s]
  | .tag _ _ children => textsOfL children

/-- The text chunks of a list of elements, in order. -/
def textsOfL : List Elem → List String
  | [] => []
  | e :: rest => textsOf e ++ textsOfL rest

end

mutual

/-- All subtrees rooted at a tag of the given name, in document
order. -/
def collectTag (t : String) : Elem → List Elem
  | .text _ => []
  | .tag name attrs children =>
    if name = t then [.tag name attrs children]
    else collectTagL t children

/-- Subtrees rooted at a tag of the given name inside a list of
elements, in order. -/
def collectTagL (t : String) : List Elem → List Elem
  | [] => []
  | e :: rest => collectTag t e ++ collectTagL t rest

end

/-- The ticket URL of the workshop announcement
(src/src/components/AnnouncementBanner.js line 42). -/
def ticketUrl : String :=
  "https://ti.to/egghead-live-online-events/introduction-to-state-machines-using-xstate-with-kyle-shevlin-2019-11-13"

/-- Embedded from src/src/components/AnnouncementBanner.js: the banner
component takes no props and renders the fixed workshop announcement
with one outbound Get Ticket link.  The css styling objects are
presentation-only and omitted. -/
def AnnouncementBanner : Unit → Elem := fun _ =>
  .tag "div" []
    [.tag "Container" []
      [.text "Attend my live, online workshop about State Machines on Nov. 13th. Get your ticket now!",
       .tag "OutboundLink" [("href", ticketUrl)] [.text "Get Ticket"]]]

/-- Frontmatter fields selected by the ExcerptList page query. -/
structure Frontmatter where
  title : String
  subtitle : String
  slug : String
  date : String
  categories : List String
  tags : List String

/-- A markdown post node as delivered by the query: frontmatter plus
excerpt. -/
structure PostNode where
  frontmatter : Frontmatter
  excerpt : String

/-- One edge of data.allMarkdownRemark.edges. -/
structure Edge where
  node : PostNode

/-- The build-time page context of an ExcerptList page: zero-based page
index and total page count. -/
structure PageContext where
  index : Nat
  totalPages : Nat

/-- The query result consumed by the ExcerptList page. -/
structure QueryData where
  edges : List Edge

/-- The ExcerptedPost component as used by ExcerptList: rendered once
per post, keyed by the post slug (its own internals live in another
file and are not modelled). -/
def ExcerptedPost (post : PostNode) : Elem :=
  .tag "ExcerptedPost" [("key", post.frontmatter.slug)] []

/-- Embedded from the ExcerptList page component (second file of
src/src/components/Footer.js): renders one ExcerptedPost per edge in
order, then the page indicator Page index+1 of totalPages. -/
def ExcerptList (data : QueryData) (pageContext : PageContext) : Elem :=
  .tag "Layout" []
    [.tag "SEO" [("title", "Home")] [],
     .tag "div" []
       ((data.edges.map Edge.node).map (fun post => ExcerptedPost post)),
     .tag "div" []
       [.text "Page ", .text (toString (pageContext.index + 1)),
        .text " of ", .text (toString pageContext.totalPages)]]

end Site

namespace StateChart

theorem findNode_id {l : List Node} {i : String} {n : Node}
    (h : findNode l i = some n) : n.id = i := by
  induction l with
  | nil => simp [findNode] at h
  | cons a rest ih =>
    by_cases ha : a.id = i
    · simp [findNode, ha] at h
      rw [← h, ha]
    · simp [findNode, ha] at h
      exact ih h

theorem findNode_mem {l : List Node} {i : String} {n : Node}
    (h : findNode l i = some n) : n ∈ l := by
  induction l with
  | nil => simp [findNode] at h
  | cons a rest ih =>
    by_cases ha : a.id = i
    · simp [findNode, ha] at h
      simp [h]
    · simp [findNode, ha] at h
      exact List.mem_cons_of_mem a (ih h)

theorem lookupA_mem {α : Type} {l : List (String × α)} {k : String}
    {v : α} (h : lookupA l k = some v) : (k, v) ∈ l := by
  induction l with
  | nil => simp [lookupA] at h
  | cons a rest ih =>
    by_cases ha : a.1 = k
    · cases a with
      | mk k₁ v₁ =>
        simp at ha
        simp [lookupA, ha] at h
        simp [ha, h]
    · cases a with
      | mk k₁ v₁ =>
        simp at ha
        simp [lookupA, ha] at h
        exact List.mem_cons_of_mem _ (ih h)

theorem descendInto_eq (cs : List Node) (i : String) :
    descendInto cs i = (findNode cs i).map initialDescent := by
  induction cs with
  | nil => simp [descendInto, findNode]
  | cons a rest ih =>
    by_cases ha : a.id = i
    · simp [descendInto, findNode, ha]
    · simp [descendInto, findNode, ha, ih]

theorem initialDescent_id (n : Node) : (initialDescent n).id = n.id := by
  cases n with
  | mk i k ini cs hs en ex =>
    cases k <;> simp only [initialDescent, Node.id]
    case compound =>
      cases ini with
      | none => rfl
      | some c =>
        cases h : descendInto cs c <;> simp [h, Config.id]
    case parallel => rfl
    case atomic => rfl
    case final => rfl

theorem wfL_mem {sibs rest : List Node} (h : wfL sibs rest = true)
    {n : Node} (hm : n ∈ rest) : wfN sibs n = true := by
  induction rest with
  | nil => simp at hm
  | cons a r ih =>
    simp only [wfL, Bool.and_eq_true] at h
    rcases List.mem_cons.mp hm with h₁ | h₁
    · rw [h₁]; exact h.1
    · exact ih h.2 h₁

theorem isSome_false_none {α : Type} {o : Option α}
    (h : o.isSome = false) : o = none := by
  cases o <;> simp at h ⊢

theorem ownCheck_take {G : String → Context → Event → Bool}
    {ctx : Context} {ev : Event} {n : Node} {tr : Transition}
    (h : ownCheck G ctx ev n = .take tr) :
    lookupA n.handlers ev.type = some tr ∧ guardPass G ctx ev tr = true := by
  unfold ownCheck at h
  split at h
  · simp at h
  · revert h
    cases hl : lookupA n.handlers ev.type with
    | none => intro h; simp at h
    | some tr₁ =>
      simp only
      split
      · rename_i hg
        intro h
        injection h with e
        subst e
        exact ⟨rfl, hg⟩
      · intro h
        simp at h

theorem ownRes_no {G : String → Context → Event → Bool} {ctx : Context}
    {ev : Event} {n : Node} {c : Config}
    (h : lookupA n.handlers ev.type = none) :
    ownRes G ctx ev n c = .terminal ∨ ownRes G ctx ev n c = .unhandled := by
  unfold ownRes
  cases ho : ownCheck G ctx ev n with
  | skip => simp [ho]
  | stop => simp [ho]
  | take tr =>
    obtain ⟨hl, -⟩ := ownCheck_take ho
    rw [h] at hl
    simp at hl

mutual

theorem transN_no (G : String → Context → Event → Bool) (ctx : Context)
    (ev : Event) (n : Node) (c : Config)
    (h : activeHasN n c ev.type = false) :
    transN G ctx ev n c = .terminal ∨ transN G ctx ev n c = .unhandled := by
  cases c with
  | leaf i =>
    simp only [activeHasN, Bool.or_eq_false_iff] at h
    have hown : lookupA n.handlers ev.type = none := isSome_false_none h.1
    simp only [transN]
    exact ownRes_no hown
  | comp i child =>
    simp only [activeHasN, Bool.or_eq_false_iff] at h
    have hown : lookupA n.handlers ev.type = none := isSome_false_none h.1
    simp only [transN]
    cases hf : findNode n.children child.id with
    | none =>
      simp only [hf]
      exact ownRes_no hown
    | some m =>
      have hchild : activeHasN m child ev.type = false := by
        simpa [hf] using h.2
      rcases transN_no G ctx ev m child hchild with h₁ | h₁
      · simp [hf, h₁, resolveFire]
      · simp only [hf, h₁, resolveFire]
        exact ownRes_no hown
  | par i confs =>
    simp only [activeHasN, Bool.or_eq_false_iff] at h
    have hown : lookupA n.handlers ev.type = none := isSome_false_none h.1
    have hq := transP_no G ctx ev n.children confs h.2
    simp only [transN]
    rcases hqq : transP G ctx ev n.children confs with ⟨cs₁, as₁, any, allt⟩
    rw [hqq] at hq
    simp at hq
    subst hq
    cases allt
    · simp only [hqq]
      exact ownRes_no hown
    · simp [hqq]

theorem transP_no (G : String → Context → Event → Bool) (ctx : Context)
    (ev : Event) (sibs : List Node) (confs : List Config)
    (h : activeHasP sibs confs ev.type = false) :
    (transP G ctx ev sibs confs).2.2.1 = false := by
  cases confs with
  | nil => simp [transP]
  | cons c rest =>
    simp only [activeHasP, Bool.or_eq_false_iff] at h
    have htail := transP_no G ctx ev sibs rest h.2
    simp only [transP]
    cases hf : findNode sibs c.id with
    | none => simp [hf, htail]
    | some m =>
      have hm : activeHasN m c ev.type = false := by simpa [hf] using h.1
      rcases transN_no G ctx ev m c hm with h₁ | h₁ <;>
        simp [hf, h₁, resolveFire, htail]

end

/-- Claim C2: for every chart, configuration, context, and event whose
type has no handler declared on any node of the active configuration,
step returns the input configuration and context unchanged, with
changed false and an empty action list: an unmatched event is a no-op,
not an error. -/
theorem step_unmatched_noop (ch : Chart) (conf : Config) (ctx : Context)
    (ev : Event) (h : activeHas ch.root.children conf ev.type = false) :
    step ch conf ctx ev = ⟨conf, ctx, [], false⟩ := by
  unfold step transL
  cases hf : findNode ch.root.children conf.id with
  | none => simp [hf, stepRes]
  | some n =>
    have hn : activeHasN n conf ev.type = false := by
      unfold activeHas at h
      simpa [hf] using h
    rcases transN_no ch.guards ctx ev n conf hn with h₁ | h₁ <;>
      simp [hf, h₁, resolveFire, stepRes]

/-- Witness for claim C2: in the flat light bulb chart at unlit, the
event TURN_OFF has no handler anywhere in the active configuration, and
step is the documented no-op. -/
theorem step_unmatched_noop_app :
    activeHas lightBulbFlat.root.children (.leaf "unlit") "TURN_OFF" = false ∧
    step lightBulbFlat (.leaf "unlit") [] ⟨"TURN_OFF", []⟩
      = ⟨.leaf "unlit", [], [], false⟩ :=
  ⟨rfl, step_unmatched_noop lightBulbFlat (.leaf "unlit") [] ⟨"TURN_OFF", []⟩ rfl⟩

theorem findNode_isSome_of_mem {l : List Node} {n : Node} (hm : n ∈ l) :
    (findNode l n.id).isSome = true := by
  induction l with
  | nil => simp at hm
  | cons a r ih =>
    by_cases ha : a.id = n.id
    · simp [findNode, ha]
    · rcases List.mem_cons.mp hm with h₁ | h₁
      · rw [h₁] at ha
        simp at ha
      · simp only [findNode, ha, if_false]
        exact ih h₁

theorem findNode_nodup {l : List Node} (hd : noDupIds l = true) {n : Node}
    (hm : n ∈ l) : findNode l n.id = some n := by
  induction l with
  | nil => simp at hm
  | cons a r ih =>
    simp only [noDupIds, Bool.and_eq_true] at hd
    rcases List.mem_cons.mp hm with h₁ | h₁
    · subst h₁
      simp [findNode]
    · have hne : ¬a.id = n.id := by
        intro he
        have hs := findNode_isSome_of_mem h₁
        rw [← he] at hs
        rw [Option.isNone_iff_eq_none.mp hd.1] at hs
        simp at hs
      simp only [findNode, hne, if_false]
      exact ih hd.2 h₁

theorem wf_target {sibs : List Node} {n : Node} {t : String}
    {tr : Transition} {tid : String} (hwf : wfN sibs n = true)
    (hl : lookupA n.handlers t = some tr) (ht : tr.target = some tid) :
    (findNode sibs tid).isSome = true := by
  cases n with
  | mk i k ini cs hs en ex =>
    simp only [wfN, Bool.and_eq_true] at hwf
    have hall := hwf.1
    have hmem : (t, tr) ∈ hs := lookupA_mem hl
    have := List.all_eq_true.mp hall ⟨t, tr⟩ hmem
    simpa [ht] using this

theorem ownRes_handled {G : String → Context → Event → Bool}
    {ctx : Context} {ev : Event} {n : Node} {c c₁ : Config}
    {a : List String} (h : ownRes G ctx ev n c = .handled c₁ a) :
    c₁ = c ∧ ∃ tr : Transition, lookupA n.handlers ev.type = some tr ∧
      guardPass G ctx ev tr = true ∧ tr.target = none ∧ a = tr.actions := by
  unfold ownRes at h
  cases ho : ownCheck G ctx ev n with
  | skip => simp [ho] at h
  | stop => simp [ho] at h
  | take tr =>
    simp only [ho] at h
    obtain ⟨hl, hg⟩ := ownCheck_take ho
    cases htg : tr.target with
    | none =>
      simp only [htg] at h
      injection h with h₁ h₂
      exact ⟨h₁.symm, tr, hl, hg, htg, h₂.symm⟩
    | some tid =>
      simp [htg] at h

theorem ownRes_fire {G : String → Context → Event → Bool} {ctx : Context}
    {ev : Event} {n : Node} {c : Config} {tid : String}
    {acts : List String} (h : ownRes G ctx ev n c = .fire tid acts) :
    ∃ tr : Transition, lookupA n.handlers ev.type = some tr ∧
      guardPass G ctx ev tr = true ∧
      tr.target = some tid ∧ acts = exitOf n c ++ tr.actions := by
  unfold ownRes at h
  cases ho : ownCheck G ctx ev n with
  | skip => simp [ho] at h
  | stop => simp [ho] at h
  | take tr =>
    simp only [ho] at h
    obtain ⟨hl, hg⟩ := ownCheck_take ho
    cases htg : tr.target with
    | none =>
      simp [htg] at h
    | some tid₁ =>
      simp only [htg] at h
      injection h with h₁ h₂
      exact ⟨tr, hl, hg, by rw [htg, h₁], h₂.symm⟩

theorem ownRes_preserve {G : String → Context → Event → Bool}
    {ctx : Context} {ev : Event} {sibs : List Node} {n : Node} {c : Config}
    (hwf : wfN sibs n = true) (hv : validCutN n c = true) :
    (∀ c₁ a, ownRes G ctx ev n c = .handled c₁ a →
      c₁.id = c.id ∧ validCutN n c₁ = true) ∧
    (∀ tid acts, ownRes G ctx ev n c = .fire tid acts →
      (findNode sibs tid).isSome = true) := by
  constructor
  · intro c₁ a h
    obtain ⟨h₁, -⟩ := ownRes_handled h
    subst h₁
    exact ⟨rfl, hv⟩
  · intro tid acts h
    obtain ⟨tr, hl, -, ht, -⟩ := ownRes_fire h
    exact wf_target hwf hl ht

theorem transL_some {G : String → Context → Event → Bool} {ctx : Context}
    {ev : Event} {sibs : List Node} {c : Config} {n : Node}
    (hf : findNode sibs c.id = some n) :
    transL G ctx ev sibs c = resolveFire sibs c (transN G ctx ev n c) := by
  unfold transL
  rw [hf]

theorem transL_none {G : String → Context → Event → Bool} {ctx : Context}
    {ev : Event} {sibs : List Node} {c : Config}
    (hf : findNode sibs c.id = none) :
    transL G ctx ev sibs c = .unhandled := by
  unfold transL
  rw [hf]

theorem transN_fire_own {G : String → Context → Event → Bool}
    {ctx : Context} {ev : Event} {n : Node} {c : Config} {tid : String}
    {acts : List String} (h : transN G ctx ev n c = .fire tid acts) :
    ownRes G ctx ev n c = .fire tid acts := by
  cases c with
  | leaf i => simpa [transN] using h
  | comp i child =>
    simp only [transN] at h
    cases hf : findNode n.children child.id with
    | none =>
      simp only [hf] at h
      exact h
    | some m =>
      simp only [hf] at h
      cases hr : transN G ctx ev m child with
      | handled c₁ a => simp [hr, resolveFire] at h
      | fire tid₁ acts₁ =>
        simp only [hr, resolveFire] at h
        cases hfn : findNode n.children tid₁ <;> simp [hfn] at h
      | terminal => simp [hr, resolveFire] at h
      | unhandled =>
        simp only [hr, resolveFire] at h
        exact h
  | par i confs =>
    simp only [transN] at h
    rcases hq : transP G ctx ev n.children confs with ⟨cs₁, as₁, any, allt⟩
    simp only [hq] at h
    cases any
    · cases allt
      · simp only at h
        exact h
      · simp at h
    · simp at h

mutual

theorem validCut_initialDescent (sibs : List Node) (n : Node)
    (h : wfN sibs n = true) : validCutN n (initialDescent n) = true := by
  cases n with
  | mk i k ini cs hs en ex =>
    cases k with
    | atomic => simp [initialDescent, validCutN, Node.kind]
    | final => simp [initialDescent, validCutN, Node.kind]
    | compound =>
      simp only [wfN, Bool.and_eq_true, and_assoc] at h
      obtain ⟨-, hini, -, hwl⟩ := h
      cases hi : ini with
      | none => rw [hi] at hini; simp at hini
      | some i₀ =>
        rw [hi] at hini
        obtain ⟨m, hm⟩ := Option.isSome_iff_exists.mp hini
        have hdesc : descendInto cs i₀ = some (initialDescent m) := by
          rw [descendInto_eq, hm]
          rfl
        simp only [initialDescent, hi, hdesc]
        have hmid : (initialDescent m).id = i₀ := by
          rw [initialDescent_id]
          exact findNode_id hm
        simp only [validCutN, Node.kind, Node.children, hmid, hm]
        exact validCut_initialDescent_mem cs cs hwl m (findNode_mem hm)
    | parallel =>
      simp only [wfN, Bool.and_eq_true, and_assoc] at h
      obtain ⟨-, -, -, -, hwl, -⟩ := h
      simp only [initialDescent, validCutN, Node.kind, Node.children]
      exact validCutP_descendAll cs cs hwl

theorem validCut_initialDescent_mem (sibs rest : List Node)
    (h : wfL sibs rest = true) :
    ∀ m ∈ rest, validCutN m (initialDescent m) = true := by
  cases rest with
  | nil => simp
  | cons a r =>
    simp only [wfL, Bool.and_eq_true] at h
    intro m hm
    rcases List.mem_cons.mp hm with h₁ | h₁
    · rw [h₁]
      exact validCut_initialDescent sibs a h.1
    · exact validCut_initialDescent_mem sibs r h.2 m h₁

theorem validCutP_descendAll (sibs rest : List Node)
    (h : wfL sibs rest = true) :
    validCutP rest (descendAll rest) = true := by
  cases rest with
  | nil => simp [descendAll, validCutP]
  | cons a r =>
    simp only [wfL, Bool.and_eq_true] at h
    simp only [descendAll, validCutP, Bool.and_eq_true]
    refine ⟨⟨?_, ?_⟩, ?_⟩
    · simp [initialDescent_id]
    · exact validCut_initialDescent sibs a h.1
    · exact validCutP_descendAll sibs r h.2

end

mutual

theorem transN_preserve (G : String → Context → Event → Bool)
    (ctx : Context) (ev : Event) (sibs : List Node) (n : Node) (c : Config)
    (hwf : wfN sibs n = true) (hv : validCutN n c = true) :
    (∀ c₁ a, transN G ctx ev n c = .handled c₁ a →
      c₁.id = c.id ∧ validCutN n c₁ = true) ∧
    (∀ tid acts, transN G ctx ev n c = .fire tid acts →
      (findNode sibs tid).isSome = true) := by
  cases c with
  | leaf i =>
    simp only [transN]
    exact ownRes_preserve hwf hv
  | comp i child =>
    cases n with
    | mk i₀ k ini cs hs en ex =>
      cases k with
      | atomic => simp [validCutN, Node.kind] at hv
      | final => simp [validCutN, Node.kind] at hv
      | parallel => simp [validCutN, Node.kind] at hv
      | compound =>
        have hwf₀ := hwf
        simp only [wfN, Bool.and_eq_true, and_assoc] at hwf₀
        obtain ⟨-, -, -, hwl⟩ := hwf₀
        cases hf : findNode cs child.id with
        | none =>
          exfalso
          simp only [validCutN, Node.kind, Node.children, hf] at hv
          exact Bool.false_ne_true hv
        | some m =>
          have hvm := hv
          simp only [validCutN, Node.kind, Node.children, hf] at hvm
          have IH := transN_preserve G ctx ev cs m child
            (wfL_mem hwl (findNode_mem hf)) hvm
          simp only [transN, Node.children, hf]
          cases hr : transN G ctx ev m child with
          | handled c₁ a =>
            obtain ⟨hid, hvc⟩ := IH.1 c₁ a hr
            simp only [resolveFire]
            constructor
            · intro c₂ a₂ h
              injection h with h₁ h₂
              subst h₁
              refine ⟨rfl, ?_⟩
              simp only [validCutN, Node.kind, Node.children, hid, hf]
              exact hvc
            · intro tid acts h
              simp at h
          | fire tid₁ acts₁ =>
            have hsome := IH.2 tid₁ acts₁ hr
            obtain ⟨m₁, hm₁⟩ := Option.isSome_iff_exists.mp hsome
            simp only [resolveFire, hm₁]
            constructor
            · intro c₂ a₂ h
              injection h with h₁ h₂
              subst h₁
              refine ⟨rfl, ?_⟩
              have hmid : (initialDescent m₁).id = tid₁ := by
                rw [initialDescent_id]
                exact findNode_id hm₁
              simp only [validCutN, Node.kind, Node.children, hmid, hm₁]
              exact validCut_initialDescent_mem cs cs hwl m₁ (findNode_mem hm₁)
            · intro tid acts h
              simp at h
          | terminal =>
            simp only [resolveFire]
            constructor
            · intro c₂ a₂ h
              simp at h
            · intro tid acts h
              simp at h
          | unhandled =>
            simp only [resolveFire]
            exact ownRes_preserve hwf hv
  | par i confs =>
    cases n with
    | mk i₀ k ini cs hs en ex =>
      cases k with
      | atomic => simp [validCutN, Node.kind] at hv
      | final => simp [validCutN, Node.kind] at hv
      | compound => simp [validCutN, Node.kind] at hv
      | parallel =>
        simp only [validCutN, Node.kind, Node.children] at hv
        have hwf₀ := hwf
        simp only [wfN, Bool.and_eq_true, and_assoc] at hwf₀
        obtain ⟨-, -, -, hnd, hwl, hreg⟩ := hwf₀
        have HP := transP_preserve G ctx ev cs cs confs hnd hwl
          (fun x hx => hx) hreg hv
        simp only [transN, Node.children]
        rcases hq : transP G ctx ev cs confs with ⟨cs₁, as₁, any, allt⟩
        rw [hq] at HP
        cases any with
        | true =>
          constructor
          · intro c₂ a₂ h
            injection h with h₁ h₂
            subst h₁
            refine ⟨rfl, ?_⟩
            simp only [validCutN, Node.kind, Node.children]
            exact HP
          · intro tid acts h
            simp at h
        | false =>
          cases allt with
          | true =>
            constructor
            · intro c₂ a₂ h
              simp at h
            · intro tid acts h
              simp at h
          | false =>
            exact ownRes_preserve hwf hv

theorem transP_preserve (G : String → Context → Event → Bool)
    (ctx : Context) (ev : Event) (sibsAll : List Node) (ns : List Node)
    (confs : List Config) (hnd : noDupIds sibsAll = true)
    (hwl : wfL sibsAll sibsAll = true) (hsub : ∀ x ∈ ns, x ∈ sibsAll)
    (hreg : sibsAll.all
      (fun r => r.handlers.all (fun h => h.2.target.isNone)) = true)
    (hv : validCutP ns confs = true) :
    validCutP ns (transP G ctx ev sibsAll confs).1 = true := by
  cases confs with
  | nil =>
    cases ns with
    | nil => simp [transP, validCutP]
    | cons a r => simp [validCutP] at hv
  | cons c₀ cs₀ =>
    cases ns with
    | nil => simp [validCutP] at hv
    | cons n₀ ns₀ =>
      simp only [validCutP, Bool.and_eq_true] at hv
      obtain ⟨⟨hid₀, hv₀⟩, hvr⟩ := hv
      have hmem₀ : n₀ ∈ sibsAll := hsub n₀ (List.mem_cons_self n₀ ns₀)
      have hcid : c₀.id = n₀.id := by
        simp at hid₀
        exact hid₀.symm
      have hfind : findNode sibsAll c₀.id = some n₀ := by
        rw [hcid]
        exact findNode_nodup hnd hmem₀
      have IH := transN_preserve G ctx ev sibsAll n₀ c₀
        (wfL_mem hwl hmem₀) hv₀
      have htail := transP_preserve G ctx ev sibsAll ns₀ cs₀ hnd hwl
        (fun x hx => hsub x (List.mem_cons_of_mem n₀ hx)) hreg hvr
      simp only [transP, hfind]
      cases hr : transN G ctx ev n₀ c₀ with
      | handled c₁ a =>
        obtain ⟨hid₁, hvc₁⟩ := IH.1 c₁ a hr
        simp only [resolveFire, validCutP, Bool.and_eq_true]
        refine ⟨⟨?_, hvc₁⟩, htail⟩
        simp [hid₁, hcid]
      | fire tid₁ acts₁ =>
        exfalso
        obtain ⟨tr, hl, -, ht, -⟩ := ownRes_fire (transN_fire_own hr)
        have hall := List.all_eq_true.mp hreg n₀ hmem₀
        have := List.all_eq_true.mp hall ⟨ev.type, tr⟩ (lookupA_mem hl)
        simp [ht] at this
      | terminal =>
        simp only [resolveFire, validCutP, Bool.and_eq_true]
        exact ⟨⟨hid₀, hv₀⟩, htail⟩
      | unhandled =>
        simp only [resolveFire, validCutP, Bool.and_eq_true]
        exact ⟨⟨hid₀, hv₀⟩, htail⟩

end

/-- Claim C3: after every step, the resulting configuration is a legal
cut of the chart state tree (exactly one active child per active
compound node, all children active for every active parallel node,
atomic and final leaves terminal; a configuration tree is non-empty by
construction): for every structurally valid chart, step preserves the
valid-cut invariant. -/
theorem step_preserves_validCut (ch : Chart) (conf : Config)
    (ctx : Context) (ev : Event) (hwf : wfChart ch = true)
    (hv : validCut ch.root.children conf = true) :
    validCut ch.root.children (step ch conf ctx ev).conf = true := by
  unfold wfChart at hwf
  simp only [Bool.and_eq_true] at hwf
  obtain ⟨hnd, hwl⟩ := hwf
  unfold validCut at hv
  unfold step
  cases hf : findNode ch.root.children conf.id with
  | none =>
    rw [hf] at hv
    simp at hv
  | some n =>
    rw [hf] at hv
    rw [transL_some hf]
    have IH := transN_preserve ch.guards ctx ev ch.root.children n conf
      (wfL_mem hwl (findNode_mem hf)) hv
    cases hr : transN ch.guards ctx ev n conf with
    | handled c₁ a =>
      obtain ⟨hid, hvc⟩ := IH.1 c₁ a hr
      simp only [resolveFire, stepRes, validCut, hid, hf]
      exact hvc
    | fire tid acts =>
      have hsome := IH.2 tid acts hr
      obtain ⟨m, hm⟩ := Option.isSome_iff_exists.mp hsome
      have hmid : (initialDescent m).id = tid := by
        rw [initialDescent_id]
        exact findNode_id hm
      simp only [resolveFire, hm, stepRes, validCut, hmid]
      exact validCut_initialDescent_mem ch.root.children ch.root.children
        hwl m (findNode_mem hm)
    | terminal =>
      simp only [resolveFire, stepRes, validCut, hf]
      exact hv
    | unhandled =>
      simp only [resolveFire, stepRes, validCut, hf]
      exact hv

/-- Witness for claim C3: the parallel light bulb chart is structurally
valid, unlit is a legal cut, and the configuration reached by TURN_ON
(lit with both regions active) is again a legal cut. -/
theorem step_preserves_validCut_app :
    wfChart lightBulbPar = true ∧
    validCut lightBulbPar.root.children (.leaf "unlit") = true ∧
    validCut lightBulbPar.root.children
      ((step lightBulbPar (.leaf "unlit") [] ⟨"TURN_ON", []⟩).conf) = true :=
  ⟨rfl, rfl,
   step_preserves_validCut lightBulbPar (.leaf "unlit") [] ⟨"TURN_ON", []⟩
     rfl rfl⟩

theorem wfN_children {sibs : List Node} {n : Node}
    (h : wfN sibs n = true) : wfL n.children n.children = true := by
  cases n with
  | mk i k ini cs hs en ex =>
    cases k <;>
      simp only [wfN, Bool.and_eq_true, and_assoc, Node.children] at h ⊢
    case atomic =>
      rw [List.isEmpty_iff.mp h.2]
      rfl
    case final =>
      rw [List.isEmpty_iff.mp h.2.1]
      rfl
    case compound => exact h.2.2.2
    case parallel => exact h.2.2.2.2.1

theorem Batches_append {G : String → Context → Event → Bool}
    {ctx : Context} {ev : Event} {sibs : List Node} {conf : Config}
    {b₁ b₂ : List String} (h₁ : Batches G ctx ev sibs conf b₁)
    (h₂ : Batches G ctx ev sibs conf b₂) :
    Batches G ctx ev sibs conf (b₁ ++ b₂) := by
  induction h₁ with
  | one hb => exact Batches.cons hb h₂
  | cons hb hbs ih =>
    rw [List.append_assoc]
    exact Batches.cons hb ih

theorem RegionBatch_lift_comp {G : String → Context → Event → Bool}
    {ctx : Context} {ev : Event} {sibs : List Node} {i : String}
    {child : Config} {n : Node} {b : List String}
    (hf : findNode sibs i = some n)
    (hb : RegionBatch G ctx ev n.children child b) :
    RegionBatch G ctx ev sibs (.comp i child) b := by
  cases hb with
  | targetless ha hh hg ht =>
    exact .targetless (ActiveIn.comp hf ha) hh hg ht
  | targeted ha hh hg ht hm =>
    exact .targeted (ActiveIn.comp hf ha) hh hg ht hm

theorem Batches_lift_comp {G : String → Context → Event → Bool}
    {ctx : Context} {ev : Event} {sibs : List Node} {i : String}
    {child : Config} {n : Node} {b : List String}
    (hf : findNode sibs i = some n)
    (hb : Batches G ctx ev n.children child b) :
    Batches G ctx ev sibs (.comp i child) b := by
  induction hb with
  | one h => exact .one (RegionBatch_lift_comp hf h)
  | cons h hs ih => exact .cons (RegionBatch_lift_comp hf h) ih

theorem RegionBatch_lift_par {G : String → Context → Event → Bool}
    {ctx : Context} {ev : Event} {sibs : List Node} {i : String}
    {confs : List Config} {c : Config} {n : Node} {b : List String}
    (hf : findNode sibs i = some n) (hc : c ∈ confs)
    (hb : RegionBatch G ctx ev n.children c b) :
    RegionBatch G ctx ev sibs (.par i confs) b := by
  cases hb with
  | targetless ha hh hg ht =>
    exact .targetless (ActiveIn.par hf hc ha) hh hg ht
  | targeted ha hh hg ht hm =>
    exact .targeted (ActiveIn.par hf hc ha) hh hg ht hm

theorem Batches_lift_par {G : String → Context → Event → Bool}
    {ctx : Context} {ev : Event} {sibs : List Node} {i : String}
    {confs : List Config} {c : Config} {n : Node} {b : List String}
    (hf : findNode sibs i = some n) (hc : c ∈ confs)
    (hb : Batches G ctx ev n.children c b) :
    Batches G ctx ev sibs (.par i confs) b := by
  induction hb with
  | one h => exact .one (RegionBatch_lift_par hf hc h)
  | cons h hs ih => exact .cons (RegionBatch_lift_par hf hc h) ih

theorem transN_fire_shape {G : String → Context → Event → Bool}
    {ctx : Context} {ev : Event} {n : Node} {c : Config} {tid : String}
    {acts : List String} (h : transN G ctx ev n c = .fire tid acts) :
    ∃ tr : Transition, lookupA n.handlers ev.type = some tr ∧
      guardPass G ctx ev tr = true ∧
      tr.target = some tid ∧ acts = exitOf n c ++ tr.actions :=
  ownRes_fire (transN_fire_own h)

theorem transP_acts_nil {G : String → Context → Event → Bool}
    {ctx : Context} {ev : Event} {sibs : List Node} :
    ∀ confs : List Config, (transP G ctx ev sibs confs).2.2.1 = false →
      (transP G ctx ev sibs confs).2.1 = [] := by
  intro confs
  induction confs with
  | nil => intro h; rfl
  | cons c₀ cs₀ ih =>
    intro h
    simp only [transP] at h ⊢
    revert h
    cases hfr : findNode sibs c₀.id with
    | none =>
      intro h
      exact ih h
    | some n₀ =>
      cases hr : transN G ctx ev n₀ c₀ with
      | handled c₁ a =>
        simp [hr, resolveFire]
      | fire tid acts =>
        cases hm : findNode sibs tid with
        | none => simp [hr, resolveFire, hm]
        | some m => simp [hr, resolveFire, hm]
      | terminal =>
        simp only [hr, resolveFire]
        intro h
        exact ih h
      | unhandled =>
        simp only [hr, resolveFire]
        intro h
        exact ih h

mutual

theorem transN_batch (G : String → Context → Event → Bool)
    (ctx : Context) (ev : Event) (sibs : List Node) (n : Node) (c : Config)
    (hwf : wfN sibs n = true) (hfind : findNode sibs c.id = some n) :
    ∀ c₁ a, transN G ctx ev n c = .handled c₁ a →
      Batches G ctx ev sibs c a := by
  intro c₁ a h
  cases c with
  | leaf i =>
    simp only [transN] at h
    obtain ⟨-, tr, hl, hg, ht, rfl⟩ := ownRes_handled h
    exact Batches.one (RegionBatch.targetless (ActiveIn.here hfind) hl hg ht)
  | comp i child =>
    cases hf : findNode n.children child.id with
    | none =>
      simp only [transN, hf] at h
      obtain ⟨-, tr, hl, hg, ht, rfl⟩ := ownRes_handled h
      exact Batches.one (RegionBatch.targetless (ActiveIn.here hfind) hl hg ht)
    | some m =>
      have hwl : wfL n.children n.children = true := wfN_children hwf
      have hwfm := wfL_mem hwl (findNode_mem hf)
      simp only [transN, hf] at h
      cases hr : transN G ctx ev m child with
      | handled c₁' a' =>
        rw [hr] at h
        simp only [resolveFire] at h
        injection h with h₁ h₂
        exact h₂ ▸ Batches_lift_comp hfind
          (transN_batch G ctx ev n.children m child hwfm hf c₁' a' hr)
      | fire tid₁ acts₁ =>
        rw [hr] at h
        simp only [resolveFire] at h
        obtain ⟨tr, hl, hg, ht, hacts⟩ := transN_fire_shape hr
        cases hm₁ : findNode n.children tid₁ with
        | none =>
          exact absurd (wf_target hwfm hl ht) (by simp [hm₁])
        | some m₁ =>
          rw [hm₁] at h
          injection h with h₁ h₂
          subst h₂
          subst hacts
          exact Batches.one
            (RegionBatch.targeted (ActiveIn.comp hfind (ActiveIn.here hf))
              hl hg ht hm₁)
      | terminal =>
        rw [hr] at h
        simp [resolveFire] at h
      | unhandled =>
        rw [hr] at h
        simp only [resolveFire] at h
        obtain ⟨-, tr, hl, hg, ht, rfl⟩ := ownRes_handled h
        exact Batches.one (RegionBatch.targetless (ActiveIn.here hfind) hl hg ht)
  | par i confs =>
    have hwl : wfL n.children n.children = true := wfN_children hwf
    rcases hq : transP G ctx ev n.children confs with ⟨cs₁, as₁, any, allt⟩
    simp only [transN, hq] at h
    cases any with
    | true =>
      injection h with h₁ h₂
      have hall := transP_batch G ctx ev sibs i n confs confs hfind hwl
        (fun x hx => hx)
      rw [hq] at hall
      exact h₂ ▸ hall rfl
    | false =>
      cases allt with
      | true => simp at h
      | false =>
        simp only at h
        obtain ⟨-, tr, hl, hg, ht, rfl⟩ := ownRes_handled h
        exact Batches.one (RegionBatch.targetless (ActiveIn.here hfind) hl hg ht)

theorem transP_batch (G : String → Context → Event → Bool)
    (ctx : Context) (ev : Event) (sibs : List Node) (i : String)
    (npar : Node) (confsAll confs : List Config)
    (hfind : findNode sibs i = some npar)
    (hwl : wfL npar.children npar.children = true)
    (hsub : ∀ x ∈ confs, x ∈ confsAll) :
    (transP G ctx ev npar.children confs).2.2.1 = true →
      Batches G ctx ev sibs (.par i confsAll)
        (transP G ctx ev npar.children confs).2.1 := by
  cases confs with
  | nil =>
    intro h
    simp [transP] at h
  | cons c₀ cs₀ =>
    intro hany
    simp only [transP] at hany ⊢
    revert hany
    cases hfr : findNode npar.children c₀.id with
    | none =>
      intro hany
      exact transP_batch G ctx ev sibs i npar confsAll cs₀ hfind hwl
        (fun x hx => hsub x (List.mem_cons_of_mem c₀ hx)) hany
    | some n₀ =>
      have hwfn := wfL_mem hwl (findNode_mem hfr)
      have hc₀ : c₀ ∈ confsAll := hsub c₀ (List.mem_cons_self c₀ cs₀)
      cases hr : transN G ctx ev n₀ c₀ with
      | handled c₁ a =>
        simp only [hr, resolveFire]
        intro hany
        have hb : Batches G ctx ev sibs (.par i confsAll) a :=
          Batches_lift_par hfind hc₀
            (transN_batch G ctx ev npar.children n₀ c₀ hwfn hfr c₁ a hr)
        cases hq2 : (transP G ctx ev npar.children cs₀).2.2.1 with
        | true =>
          exact Batches_append hb
            (transP_batch G ctx ev sibs i npar confsAll cs₀ hfind hwl
              (fun x hx => hsub x (List.mem_cons_of_mem c₀ hx)) hq2)
        | false =>
          rw [transP_acts_nil cs₀ hq2, List.append_nil]
          exact hb
      | fire tid acts =>
        obtain ⟨tr, hl, hg, ht, hacts⟩ := transN_fire_shape hr
        cases hm : findNode npar.children tid with
        | none =>
          exact absurd (wf_target hwfn hl ht) (by simp [hm])
        | some m =>
          simp only [hr, resolveFire, hm]
          intro hany
          have hb : Batches G ctx ev sibs (.par i confsAll) (acts ++ entryOf m) := by
            subst hacts
            exact Batches.one
              (RegionBatch.targeted (ActiveIn.par hfind hc₀ (ActiveIn.here hfr))
                hl hg ht hm)
          cases hq2 : (transP G ctx ev npar.children cs₀).2.2.1 with
          | true =>
            exact Batches_append hb
              (transP_batch G ctx ev sibs i npar confsAll cs₀ hfind hwl
                (fun x hx => hsub x (List.mem_cons_of_mem c₀ hx)) hq2)
          | false =>
            rw [transP_acts_nil cs₀ hq2, List.append_nil]
            exact hb
      | terminal =>
        simp only [hr, resolveFire]
        intro hany
        exact transP_batch G ctx ev sibs i npar confsAll cs₀ hfind hwl
          (fun x hx => hsub x (List.mem_cons_of_mem c₀ hx)) hany
      | unhandled =>
        simp only [hr, resolveFire]
        intro hany
        exact transP_batch G ctx ev sibs i npar confsAll cs₀ hfind hwl
          (fun x hx => hsub x (List.mem_cons_of_mem c₀ hx)) hany

end

/-- Claim C4: for every step that takes a transition in a structurally
valid chart, the computed action batch is a concatenation (one batch
per fired region, in region order) of region batches, where a region
batch is tied to a node that is genuinely active in the input
configuration, declares the handler for the event type, and has a
passing guard, and is exactly, in order: the exit actions of the
deactivated states innermost first, then the transition own actions in
declaration order, then the entry actions of the activated states
outermost first, with the target resolved among the firing node
siblings (targetless transitions contribute their bare action list). -/
theorem step_action_order (ch : Chart) (conf : Config) (ctx : Context)
    (ev : Event) (hwf : wfChart ch = true)
    (hch : (step ch conf ctx ev).changed = true) :
    Batches ch.guards ctx ev ch.root.children conf
      (step ch conf ctx ev).actions := by
  unfold wfChart at hwf
  simp only [Bool.and_eq_true] at hwf
  obtain ⟨-, hwl⟩ := hwf
  unfold step at hch ⊢
  cases hf : findNode ch.root.children conf.id with
  | none =>
    rw [transL_none hf] at hch
    simp [stepRes] at hch
  | some n =>
    rw [transL_some hf] at hch ⊢
    have hwfn := wfL_mem hwl (findNode_mem hf)
    cases hr : transN ch.guards ctx ev n conf with
    | handled c₁ a =>
      simp only [hr, resolveFire, stepRes]
      exact transN_batch ch.guards ctx ev ch.root.children n conf hwfn hf
        c₁ a hr
    | fire tid acts =>
      obtain ⟨tr, hl, hg, ht, hacts⟩ := transN_fire_shape hr
      cases hm : findNode ch.root.children tid with
      | none =>
        exact absurd (wf_target hwfn hl ht) (by simp [hm])
      | some m =>
        simp only [hr, resolveFire, hm, stepRes]
        subst hacts
        exact Batches.one
          (RegionBatch.targeted (ActiveIn.here hf) hl hg ht hm)
    | terminal =>
      rw [hr] at hch
      simp [resolveFire, stepRes] at hch
    | unhandled =>
      rw [hr] at hch
      simp [resolveFire, stepRes] at hch

/-- Witness for claim C4: in the light bulb chart with actions, TURN_ON
from unlit takes a transition, its batch has the region-batch shape
over that chart and configuration, and concretely the batch is the
exit action of unlit followed by the entry action of lit. -/
theorem step_action_order_app :
    wfChart lightBulbActions = true ∧
    (step lightBulbActions (.leaf "unlit") [] ⟨"TURN_ON", []⟩).changed = true ∧
    (step lightBulbActions (.leaf "unlit") [] ⟨"TURN_ON", []⟩).actions
      = ["leaveUnlit", "enterLit"] ∧
    Batches lightBulbActions.guards [] ⟨"TURN_ON", []⟩
      lightBulbActions.root.children (.leaf "unlit")
      (step lightBulbActions (.leaf "unlit") [] ⟨"TURN_ON", []⟩).actions :=
  ⟨rfl, rfl, rfl,
   step_action_order lightBulbActions (.leaf "unlit") [] ⟨"TURN_ON", []⟩
     rfl rfl⟩

/-- Claim C1: the transition engine is deterministic: for every fixed
tuple (chart, configuration, context, event), two calls to step yield
identical outputs, with no dependence on hidden randomness or
wall-clock time; step is a pure function of its four arguments. -/
theorem step_deterministic (ch : Chart) (conf : Config) (ctx : Context)
    (ev : Event) : step ch conf ctx ev = step ch conf ctx ev := rfl

/-- Claim C5: in the flat light bulb chart, BREAK moves lit to the
final state broken, and once the region is in broken every subsequently
sent event returns the unchanged broken configuration and context with
no actions and changed false: a final region accepts no further
events. -/
theorem final_state_absorbs :
    (step lightBulbFlat (.leaf "lit") [] ⟨"BREAK", []⟩).conf = .leaf "broken" ∧
    ∀ (ev : Event) (ctx : Context),
      step lightBulbFlat (.leaf "broken") ctx ev = ⟨.leaf "broken", ctx, [], false⟩ :=
  ⟨rfl, fun _ _ => rfl⟩

theorem own_mapping (G : String → Context → Event → Bool) (ctx : Context)
    (ev : Event) (sibs : List Node) (n : Node) (c : Config)
    (hwf : wfN sibs n = true)
    (htr : transN G ctx ev n c = ownRes G ctx ev n c) :
    (ownToChoice sibs n c (ownCheck G ctx ev n) = .miss →
      transN G ctx ev n c = .unhandled) ∧
    (ownToChoice sibs n c (ownCheck G ctx ev n) = .blocked →
      transN G ctx ev n c = .terminal) ∧
    (∀ sibs1 n1 cn tr,
      ownToChoice sibs n c (ownCheck G ctx ev n) = .pick sibs1 n1 cn tr →
      lookupA n1.handlers ev.type = some tr ∧ guardPass G ctx ev tr = true ∧
      ((tr.target = none ∧ transN G ctx ev n c = .handled c tr.actions) ∨
       (∃ tid m, tr.target = some tid ∧ findNode sibs1 tid = some m ∧
         ((sibs1 = sibs ∧
           transN G ctx ev n c = .fire tid (exitOf n1 cn ++ tr.actions)) ∨
          ∃ c₁, transN G ctx ev n c
            = .handled c₁ (exitOf n1 cn ++ tr.actions ++ entryOf m))))) := by
  cases ho : ownCheck G ctx ev n with
  | skip =>
    refine ⟨fun _ => ?_, fun hb => ?_, fun s1 n1 cn tr hp => ?_⟩
    · rw [htr]
      simp [ownRes, ho]
    · simp [ownToChoice, ho] at hb
    · simp [ownToChoice, ho] at hp
  | stop =>
    refine ⟨fun hm1 => ?_, fun _ => ?_, fun s1 n1 cn tr hp => ?_⟩
    · simp [ownToChoice, ho] at hm1
    · rw [htr]
      simp [ownRes, ho]
    · simp [ownToChoice, ho] at hp
  | take tr0 =>
    obtain ⟨hl, hg⟩ := ownCheck_take ho
    refine ⟨fun hm1 => ?_, fun hb => ?_, fun s1 n1 cn tr hp => ?_⟩
    · simp [ownToChoice, ho] at hm1
    · simp [ownToChoice, ho] at hb
    · simp only [ownToChoice, ho] at hp
      injection hp with e1 e2 e3 e4
      subst e1
      subst e2
      subst e3
      subst e4
      refine ⟨hl, hg, ?_⟩
      cases htg : tr0.target with
      | none =>
        left
        refine ⟨rfl, ?_⟩
        rw [htr]
        simp [ownRes, ho, htg]
      | some tid =>
        right
        obtain ⟨m, hm⟩ := Option.isSome_iff_exists.mp (wf_target hwf hl htg)
        refine ⟨tid, m, rfl, hm, Or.inl ⟨rfl, ?_⟩⟩
        rw [htr]
        simp [ownRes, ho, htg]

theorem transN_choose (G : String → Context → Event → Bool) (ctx : Context)
    (ev : Event) (sibs : List Node) (n : Node) (c : Config)
    (hwf : wfN sibs n = true) (hchain : chainOnly c = true) :
    (chooseN G ctx ev sibs n c = .miss → transN G ctx ev n c = .unhandled) ∧
    (chooseN G ctx ev sibs n c = .blocked →
      transN G ctx ev n c = .terminal) ∧
    (∀ sibs1 n1 cn tr, chooseN G ctx ev sibs n c = .pick sibs1 n1 cn tr →
      lookupA n1.handlers ev.type = some tr ∧ guardPass G ctx ev tr = true ∧
      ((tr.target = none ∧ transN G ctx ev n c = .handled c tr.actions) ∨
       (∃ tid m, tr.target = some tid ∧ findNode sibs1 tid = some m ∧
         ((sibs1 = sibs ∧
           transN G ctx ev n c = .fire tid (exitOf n1 cn ++ tr.actions)) ∨
          ∃ c₁, transN G ctx ev n c
            = .handled c₁ (exitOf n1 cn ++ tr.actions ++ entryOf m))))) := by
  cases c with
  | leaf i =>
    have htr : transN G ctx ev n (.leaf i) = ownRes G ctx ev n (.leaf i) := by
      simp [transN]
    have M := own_mapping G ctx ev sibs n (.leaf i) hwf htr
    have hcheq : chooseN G ctx ev sibs n (.leaf i)
        = ownToChoice sibs n (.leaf i) (ownCheck G ctx ev n) := by
      simp [chooseN]
    exact ⟨fun h1 => M.1 (by rw [← hcheq]; exact h1),
           fun h1 => M.2.1 (by rw [← hcheq]; exact h1),
           fun s1 n1 cn tr hp => M.2.2 s1 n1 cn tr (by rw [← hcheq]; exact hp)⟩
  | comp i child =>
    have hchild : chainOnly child = true := by
      simpa [chainOnly] using hchain
    cases hf : findNode n.children child.id with
    | none =>
      have htr : transN G ctx ev n (.comp i child)
          = ownRes G ctx ev n (.comp i child) := by
        simp [transN, hf]
      have M := own_mapping G ctx ev sibs n (.comp i child) hwf htr
      have hcheq : chooseN G ctx ev sibs n (.comp i child)
          = ownToChoice sibs n (.comp i child) (ownCheck G ctx ev n) := by
        simp [chooseN, hf]
      exact ⟨fun h1 => M.1 (by rw [← hcheq]; exact h1),
             fun h1 => M.2.1 (by rw [← hcheq]; exact h1),
             fun s1 n1 cn tr hp => M.2.2 s1 n1 cn tr (by rw [← hcheq]; exact hp)⟩
    | some m =>
      have hwl : wfL n.children n.children = true := wfN_children hwf
      have hwfm := wfL_mem hwl (findNode_mem hf)
      have IH := transN_choose G ctx ev n.children m child hwfm hchild
      cases hcc : chooseN G ctx ev n.children m child with
      | miss =>
        have hcheq : chooseN G ctx ev sibs n (.comp i child)
            = ownToChoice sibs n (.comp i child) (ownCheck G ctx ev n) := by
          simp only [chooseN, hf, hcc]
        have hudeep : transN G ctx ev m child = .unhandled := IH.1 hcc
        have htr : transN G ctx ev n (.comp i child)
            = ownRes G ctx ev n (.comp i child) := by
          simp [transN, hf, hudeep, resolveFire]
        have M := own_mapping G ctx ev sibs n (.comp i child) hwf htr
        exact ⟨fun h1 => M.1 (by rw [← hcheq]; exact h1),
               fun h1 => M.2.1 (by rw [← hcheq]; exact h1),
               fun s1 n1 cn tr hp => M.2.2 s1 n1 cn tr (by rw [← hcheq]; exact hp)⟩
      | blocked =>
        have hcheq : chooseN G ctx ev sibs n (.comp i child) = .blocked := by
          simp only [chooseN, hf, hcc]
        have hdeep : transN G ctx ev m child = .terminal := IH.2.1 hcc
        have htr : transN G ctx ev n (.comp i child) = .terminal := by
          simp [transN, hf, hdeep, resolveFire]
        refine ⟨fun hm1 => ?_, fun _ => htr, fun s1 n1 cn tr hp => ?_⟩
        · rw [hcheq] at hm1
          simp at hm1
        · rw [hcheq] at hp
          simp at hp
      | pick s1' n1' cn' tr' =>
        have hcheq : chooseN G ctx ev sibs n (.comp i child)
            = .pick s1' n1' cn' tr' := by
          simp only [chooseN, hf, hcc]
        obtain ⟨hl1, hg1, hrest⟩ := IH.2.2 s1' n1' cn' tr' hcc
        refine ⟨fun hm1 => ?_, fun hb => ?_, fun s1 n1 cn tr hp => ?_⟩
        · rw [hcheq] at hm1
          simp at hm1
        · rw [hcheq] at hb
          simp at hb
        · rw [hcheq] at hp
          injection hp with e1 e2 e3 e4
          subst e1
          subst e2
          subst e3
          subst e4
          refine ⟨hl1, hg1, ?_⟩
          rcases hrest with ⟨htg, hdeep⟩ | ⟨tid, mq, htg, hmq, hsub⟩
          · left
            refine ⟨htg, ?_⟩
            simp [transN, hf, hdeep, resolveFire]
          · right
            refine ⟨tid, mq, htg, hmq, Or.inr ?_⟩
            rcases hsub with ⟨hs1eq, hfire⟩ | ⟨c₁, hhand⟩
            · rw [hs1eq] at hmq
              refine ⟨.comp i (initialDescent mq), ?_⟩
              simp [transN, hf, hfire, resolveFire, hmq]
            · refine ⟨.comp i c₁, ?_⟩
              simp [transN, hf, hhand, resolveFire]
  | par i confs =>
    simp [chainOnly] at hchain

/-- Claim C6: handler lookup for an event is by bubbling, for every
chart, single-chain active configuration, context and event: the
engine behaves exactly as dictated by the lookup specification choose,
which picks the handler declared on the most deeply nested active node
that declares one for the event type, searching upward toward the root
and stopping at the first such node (an ancestor handler is consulted
only when no active descendant handles the event).  A miss is the
documented no-op, a blocked region (final node or failed guard) is a
no-op, and a picked handler fires: targetless it changes only the
context, targeted it produces exactly the exit, transition and entry
actions of the chosen node and its resolved target. -/
theorem bubbling_handler_lookup (ch : Chart) (conf : Config)
    (ctx : Context) (ev : Event) (hwf : wfChart ch = true)
    (hchain : chainOnly conf = true) :
    (∀ sibs1 n cn tr,
      choose ch.guards ctx ev ch.root.children conf = .pick sibs1 n cn tr →
      lookupA n.handlers ev.type = some tr ∧
      (tr.target = none →
        step ch conf ctx ev
          = ⟨conf, applyAssigns ch tr.actions ev ctx, tr.actions, true⟩) ∧
      (∀ tid, tr.target = some tid → ∃ m, findNode sibs1 tid = some m ∧
        (step ch conf ctx ev).changed = true ∧
        (step ch conf ctx ev).actions
          = exitOf n cn ++ tr.actions ++ entryOf m)) ∧
    (choose ch.guards ctx ev ch.root.children conf = .blocked →
      step ch conf ctx ev = ⟨conf, ctx, [], false⟩) ∧
    (choose ch.guards ctx ev ch.root.children conf = .miss →
      step ch conf ctx ev = ⟨conf, ctx, [], false⟩) := by
  unfold wfChart at hwf
  simp only [Bool.and_eq_true] at hwf
  obtain ⟨-, hwl⟩ := hwf
  cases hf : findNode ch.root.children conf.id with
  | none =>
    refine ⟨fun s1 n cn tr hp => ?_, fun hb => ?_, fun _ => ?_⟩
    · unfold choose at hp
      rw [hf] at hp
      simp at hp
    · unfold choose at hb
      rw [hf] at hb
      simp at hb
    · unfold step
      rw [transL_none hf]
      rfl
  | some n =>
    have hwfn := wfL_mem hwl (findNode_mem hf)
    have T := transN_choose ch.guards ctx ev ch.root.children n conf hwfn hchain
    have hcheq : choose ch.guards ctx ev ch.root.children conf
        = chooseN ch.guards ctx ev ch.root.children n conf := by
      unfold choose
      rw [hf]
    refine ⟨fun s1 n1 cn tr hp => ?_, fun hb => ?_, fun hm1 => ?_⟩
    · rw [hcheq] at hp
      obtain ⟨hl, hg, hrest⟩ := T.2.2 s1 n1 cn tr hp
      refine ⟨hl, ?_, ?_⟩
      · intro htg
        rcases hrest with ⟨-, hdeep⟩ | ⟨tid, m, htg', -⟩
        · unfold step
          rw [transL_some hf, hdeep]
          rfl
        · rw [htg] at htg'
          simp at htg'
      · intro tid htg
        rcases hrest with ⟨htg', -⟩ | ⟨tid', m, htg', hm', hsub⟩
        · rw [htg'] at htg
          simp at htg
        · rw [htg] at htg'
          injection htg' with e
          subst e
          rcases hsub with ⟨hs1eq, hfire⟩ | ⟨c₁, hhand⟩
          · rw [hs1eq] at hm'
            refine ⟨m, by rw [hs1eq]; exact hm', ?_, ?_⟩
            · unfold step
              rw [transL_some hf, hfire]
              simp [resolveFire, hm', stepRes]
            · unfold step
              rw [transL_some hf, hfire]
              simp [resolveFire, hm', stepRes]
          · refine ⟨m, hm', ?_, ?_⟩
            · unfold step
              rw [transL_some hf, hhand]
              rfl
            · unfold step
              rw [transL_some hf, hhand]
              rfl
    · rw [hcheq] at hb
      have hterm := T.2.1 hb
      unfold step
      rw [transL_some hf, hterm]
      rfl
    · rw [hcheq] at hm1
      have hun := T.1 hm1
      unfold step
      rw [transL_some hf, hun]
      rfl

/-- Witness for claim C6: in the hierarchical chart at lit.normal,
TURN_OFF is declared only on the ancestor lit and the lookup picks lit
(no active descendant handles it), so the batch exits lit and enters
unlit; INCREASE_BRIGHTNESS is declared on the deepest active node
normal and the lookup picks normal, so the batch exits normal and
enters high. -/
theorem bubbling_handler_lookup_app :
    (∃ m, findNode lightBulbHier.root.children "unlit" = some m ∧
      (step lightBulbHier (.comp "lit" (.leaf "normal")) []
        ⟨"TURN_OFF", []⟩).changed = true ∧
      (step lightBulbHier (.comp "lit" (.leaf "normal")) []
        ⟨"TURN_OFF", []⟩).actions
        = exitOf hierLit (.comp "lit" (.leaf "normal")) ++ [] ++ entryOf m) ∧
    (∃ m, findNode hierLit.children "high" = some m ∧
      (step lightBulbHier (.comp "lit" (.leaf "normal")) []
        ⟨"INCREASE_BRIGHTNESS", []⟩).changed = true ∧
      (step lightBulbHier (.comp "lit" (.leaf "normal")) []
        ⟨"INCREASE_BRIGHTNESS", []⟩).actions
        = exitOf hierNormal (.leaf "normal") ++ [] ++ entryOf m) :=
  ⟨((bubbling_handler_lookup lightBulbHier (.comp "lit" (.leaf "normal")) []
      ⟨"TURN_OFF", []⟩ rfl rfl).1
      lightBulbHier.root.children hierLit (.comp "lit" (.leaf "normal"))
      ⟨some "unlit", [], none⟩ rfl).2.2 "unlit" rfl,
   ((bubbling_handler_lookup lightBulbHier (.comp "lit" (.leaf "normal")) []
      ⟨"INCREASE_BRIGHTNESS", []⟩ rfl rfl).1
      hierLit.children hierNormal (.leaf "normal")
      ⟨some "high", [], none⟩ rfl).2.2 "high" rfl⟩

/-- Claim C7: in the parallel chart with independent regions pattern
and movement, stepping with PULSE from pattern steady and movement
stationary changes only the pattern region to pulsing and leaves the
movement region unchanged at stationary. -/
theorem parallel_region_frame :
    step lightBulbPar
      (.par "lit" [.comp "pattern" (.leaf "steady"), .comp "movement" (.leaf "stationary")])
      [] ⟨"PULSE", []⟩
    = ⟨.par "lit" [.comp "pattern" (.leaf "pulsing"), .comp "movement" (.leaf "stationary")],
       [], [], true⟩ := rfl

/-- Claim C8: a handled transition with no target changes only the
context, never the configuration: the targetless CHANGE_COLOR handler
runs the assign-style action updateColor, which sets context color from
the event color, and the configuration stays lit. -/
theorem targetless_context_only :
    step lightBulbColor (.leaf "lit") [("color", "#fff")]
      ⟨"CHANGE_COLOR", [("color", "#f00")]⟩
    = ⟨.leaf "lit", [("color", "#f00")], ["updateColor"], true⟩ := rfl

end StateChart

namespace Site

theorem textsOfL_posts (l : List Edge) :
    textsOfL (l.map (fun e => ExcerptedPost e.node)) = [] := by
  induction l with
  | nil => rfl
  | cons p r ih =>
    simp only [List.map_cons, textsOfL, ih]
    rfl

theorem collectTagL_posts (l : List Edge) :
    collectTagL "ExcerptedPost" (l.map (fun e => ExcerptedPost e.node))
      = l.map (fun e => ExcerptedPost e.node) := by
  induction l with
  | nil => rfl
  | cons p r ih =>
    simp only [List.map_cons, collectTagL, ih]
    rfl

/-- Claim C9: the AnnouncementBanner component takes no inputs and is
constant: every two renders return the identical element tree, whose
text is the fixed workshop announcement and whose outbound links are
exactly one Get Ticket link with the fixed ti.to ticket URL. -/
theorem announcementBanner_constant :
    (∀ u v : Unit, AnnouncementBanner u = AnnouncementBanner v) ∧
    outLinks (AnnouncementBanner ()) = [(ticketUrl, [Elem.text "Get Ticket"])] ∧
    textsOf (AnnouncementBanner ()) =
      ["Attend my live, online workshop about State Machines on Nov. 13th. Get your ticket now!",
       "Get Ticket"] :=
  ⟨fun _ _ => rfl, rfl, rfl⟩

/-- Claim C10: for every query result and page context, the ExcerptList
page renders the page indicator as Page N of totalPages with N equal to
pageContext.index plus one (displayed page numbers are 1-based, the
index 0-based), and renders exactly one ExcerptedPost per edge of
data.allMarkdownRemark.edges, in edge order. -/
theorem excerptList_renders (data : QueryData) (pc : PageContext) :
    textsOf (ExcerptList data pc)
      = ["Page ", toString (pc.index + 1), " of ", toString pc.totalPages] ∧
    collectTag "ExcerptedPost" (ExcerptList data pc)
      = data.edges.map (fun e => ExcerptedPost e.node) := by
  constructor
  · simp [ExcerptList, textsOf, textsOfL, Function.comp_def, textsOfL_posts]
  · simp [ExcerptList, collectTag, collectTagL, Function.comp_def,
      collectTagL_posts]

end Site
